import Mathlib

/-
Verification of the numeric analysis core of OpenFMR.

The definitions below are a shallow embedding of the Python source files
`software/fmr.py` and `software/OpenFMR_Fit.py`: NumPy arrays become
`List ℝ` (or index functions `ℕ → ℝ` where an algorithm is most naturally
indexed), floating-point arithmetic is idealized as real arithmetic, and
fallible library calls are modelled with `Except`.  Definitions keep the
source names.  Reference definitions written from the specification text
are clearly marked as such.
-/

namespace OpenFMR

noncomputable section

/-! ## Physical constants (fmr.py / OpenFMR_Fit.py, module level) -/

/-- Vacuum permeability, `mu0 = 1.2566e-6`. -/
def mu0 : ℝ := 1.2566e-6

/-- Elementary charge, `e = 1.602e-19`. -/
def e : ℝ := 1.602e-19

/-- Electron mass, `me = 9.11e-31`. -/
def me : ℝ := 9.11e-31

/-- Gyromagnetic prefactor `g*e/(2*me) / (2*np.pi)`, as computed inline in
`Fit.kittel_fitfunction_inplane`, `Fit.kittel_fitfunction_outofplane`,
`FMR.field_sweep` and the GUI glue. -/
def gamma_prime (g : ℝ) : ℝ := g * e / (2 * me) / (2 * Real.pi)

/-! ## NumPy-style list helpers -/

/-- `np.mean`: arithmetic mean of a list (0 on the empty list, where NumPy
returns NaN). -/
def npMean (l : List ℝ) : ℝ := l.sum / l.length

/-- `np.argmin`: index of the first occurrence of the minimum value. -/
def npArgmin : List ℝ → ℕ
  | [] => 0
  | [_] => 0
  | a :: b :: t =>
    if a ≤ (b :: t).getD (npArgmin (b :: t)) 0 then 0 else npArgmin (b :: t) + 1

/-- `np.argmax`: index of the first occurrence of the maximum value. -/
def npArgmax : List ℝ → ℕ
  | [] => 0
  | [_] => 0
  | a :: b :: t =>
    if (b :: t).getD (npArgmax (b :: t)) 0 ≤ a then 0 else npArgmax (b :: t) + 1

/-- Python `max` over a list of reals (meaningful on nonempty lists; Python
raises `ValueError` on an empty sequence). -/
def npMax : List ℝ → ℝ
  | [] => 0
  | a :: t => t.foldl max a

/-- `np.linspace(a, b, n)`: `n` evenly spaced points from `a` to `b`. -/
def linspace (a b : ℝ) (n : ℕ) : List ℝ :=
  (List.range n).map fun k : ℕ => a + (b - a) * (k : ℝ) / ((n : ℝ) - 1)

/-- `np.arange(start, stop, step)` for a positive step: the values
`start + k*step` for `0 ≤ k < ⌈(stop - start)/step⌉`. -/
def arange (start stop step : ℝ) : List ℝ :=
  (List.range ⌈(stop - start) / step⌉₊).map fun k : ℕ => start + (k : ℝ) * step

/-- The individual trapezoid areas `(x[i+1]-x[i]) * (y[i]+y[i+1])/2` used by
`scipy.integrate.cumtrapz(y, x)`. -/
def trapezoids (y x : List ℝ) : List ℝ :=
  ((x.zip x.tail).zip (y.zip y.tail)).map fun q => (q.1.2 - q.1.1) * (q.2.1 + q.2.2) / 2

/-- `scipy.integrate.cumtrapz(y, x)` (no `initial` argument): cumulative
trapezoidal integral, one entry per consecutive pair, so length `n-1`. -/
def cumtrapz (y x : List ℝ) : List ℝ :=
  ((trapezoids y x).scanl (· + ·) 0).tail

/-! ## Line-Shape Library (OpenFMR_Fit.py, class Fit) -/

/-- The denominator `((B - B0)**2 + Gamma**2)**2` of `Fit.lorentz_derivative`. -/
def lorentzDenom (B B0 Gamma : ℝ) : ℝ := ((B - B0) ^ 2 + Gamma ^ 2) ^ 2

/-- `Fit.lorentz_derivative`: closed-form derivative Lorentzian
`A * Gamma**2 * (B0 - B) / ((B - B0)**2 + Gamma**2)**2 + offset`. -/
def lorentz_derivative (B A B0 Gamma offset : ℝ) : ℝ :=
  A * Gamma ^ 2 * (B0 - B) / lorentzDenom B B0 Gamma + offset

/-- The un-differentiated asymmetric Lorentzian
`l = A * Gamma**2 * (1 + 2*beta*(B0 - B)/Gamma) / ((B0 - B)**2 + Gamma**2)`
built inside `Fit.asymmetric_lorentz_derivative`. -/
def asymmetric_lorentz (B A B0 Gamma beta : ℝ) : ℝ :=
  A * Gamma ^ 2 * (1 + 2 * beta * (B0 - B) / Gamma) / ((B0 - B) ^ 2 + Gamma ^ 2)

/-- `np.gradient(f, x, edge_order=2)` on a sample of length `n ≥ 3`, indexed
over `i < n`: NumPy's second-order finite differences with the exact
nonuniform-spacing coefficients of `numpy.lib.function_base.gradient`
(one-sided at the two boundary samples, weighted central in the interior). -/
def npGradient (f x : ℕ → ℝ) (n : ℕ) (i : ℕ) : ℝ :=
  if i = 0 then
    -(2 * (x 1 - x 0) + (x 2 - x 1)) / ((x 1 - x 0) * ((x 1 - x 0) + (x 2 - x 1))) * f 0
      + ((x 1 - x 0) + (x 2 - x 1)) / ((x 1 - x 0) * (x 2 - x 1)) * f 1
      - (x 1 - x 0) / ((x 2 - x 1) * ((x 1 - x 0) + (x 2 - x 1))) * f 2
  else if i = n - 1 then
    (x (n-1) - x (n-2)) / ((x (n-2) - x (n-3)) * ((x (n-2) - x (n-3)) + (x (n-1) - x (n-2)))) * f (n-3)
      - ((x (n-2) - x (n-3)) + (x (n-1) - x (n-2))) / ((x (n-2) - x (n-3)) * (x (n-1) - x (n-2))) * f (n-2)
      + (2 * (x (n-1) - x (n-2)) + (x (n-2) - x (n-3))) / ((x (n-1) - x (n-2)) * ((x (n-2) - x (n-3)) + (x (n-1) - x (n-2)))) * f (n-1)
  else
    -(x (i+1) - x i) / ((x i - x (i-1)) * ((x i - x (i-1)) + (x (i+1) - x i))) * f (i-1)
      + ((x (i+1) - x i) - (x i - x (i-1))) / ((x i - x (i-1)) * (x (i+1) - x i)) * f i
      + (x i - x (i-1)) / ((x (i+1) - x i) * ((x i - x (i-1)) + (x (i+1) - x i))) * f (i+1)

/-- `Fit.asymmetric_lorentz_derivative` at sample index `i`: build the
un-differentiated asymmetric Lorentzian on the field axis `x` and return
`np.gradient(l, x, edge_order=2) + offset`. -/
def asymmetric_lorentz_derivative (x : ℕ → ℝ) (n : ℕ) (A B0 Gamma offset beta : ℝ)
    (i : ℕ) : ℝ :=
  npGradient (fun j => asymmetric_lorentz (x j) A B0 Gamma beta) x n i + offset

/-- Reference definition from the specification: the derivative at `t` of the
unique quadratic through `(x0,y0)`, `(x1,y1)`, `(x2,y2)` (differentiated
Lagrange interpolation).  On a uniform grid with `t = x1` it is the classical
second-order central difference, and with `t = x0` (resp. `t = x2`) the
classical second-order one-sided difference. -/
def quadInterpDeriv (x0 x1 x2 y0 y1 y2 t : ℝ) : ℝ :=
  y0 * (2 * t - x1 - x2) / ((x0 - x1) * (x0 - x2))
    + y1 * (2 * t - x0 - x2) / ((x1 - x0) * (x1 - x2))
    + y2 * (2 * t - x0 - x1) / ((x2 - x0) * (x2 - x1))

/-- Reference definition from the specification (spec 4.1): numeric
differentiation that is second-order accurate, using the three nearest
samples: one-sided at the two endpoint samples and central at interior
points. -/
def secondOrderDeriv (f x : ℕ → ℝ) (n : ℕ) (i : ℕ) : ℝ :=
  if i = 0 then
    quadInterpDeriv (x 0) (x 1) (x 2) (f 0) (f 1) (f 2) (x 0)
  else if i = n - 1 then
    quadInterpDeriv (x (n-3)) (x (n-2)) (x (n-1)) (f (n-3)) (f (n-2)) (f (n-1)) (x (n-1))
  else
    quadInterpDeriv (x (i-1)) (x i) (x (i+1)) (f (i-1)) (f i) (f (i+1)) (x i)

/-! ## Line-shape variants and fit bounds -/

/-- The closed set of line-shape variants (spec 3, "Line-Shape Variant"). -/
inductive LineShape where
  | Lorentz
  | AsymmetricLorentz
  | Voigt
deriving DecidableEq

/-- The `fitProfile` string used by the GUI combo box for each variant. -/
def LineShape.profileName : LineShape → String
  | .Lorentz => "Lorentz"
  | .AsymmetricLorentz => "Asymmetric Lorentz"
  | .Voigt => "Voigt"

/-- Parameter roles, in the variant's fixed vector order (spec 3). -/
inductive ParamRole where
  | amplitude
  | center
  | gammaWidth
  | sigmaWidth
  | offsetParam
  | betaParam
deriving DecidableEq

/-- The fixed parameter layout of each variant (spec 3):
Lorentz `[A, center, Γ, offset]`, AsymmetricLorentz `[A, center, Γ, offset, β]`,
Voigt `[A, center, Γ, σ, offset]`. -/
def paramRoles : LineShape → List ParamRole
  | .Lorentz => [.amplitude, .center, .gammaWidth, .offsetParam]
  | .AsymmetricLorentz => [.amplitude, .center, .gammaWidth, .offsetParam, .betaParam]
  | .Voigt => [.amplitude, .center, .gammaWidth, .sigmaWidth, .offsetParam]

/-- Reference definition from the specification (spec 4.2): `center`, Γ and σ
are bounded below at 0, all other parameters are unbounded below. -/
def specLowerBound : ParamRole → EReal
  | .center => 0
  | .gammaWidth => 0
  | .sigmaWidth => 0
  | _ => ⊥

/-- The lower-bound vectors passed to `scipy.optimize.curve_fit` in
`Fit.fit_derivative` (`-np.inf` is `⊥`). -/
def fit_derivative_lower_bounds (fitProfile : String) : List EReal :=
  if fitProfile = "Lorentz" then [⊥, 0, 0, ⊥]
  else if fitProfile = "Asymmetric Lorentz" then [⊥, 0, 0, ⊥, ⊥]
  else [⊥, 0, 0, 0, ⊥]

/-- The upper-bound vectors passed to `scipy.optimize.curve_fit` in
`Fit.fit_derivative` (`np.inf` is `⊤`). -/
def fit_derivative_upper_bounds (fitProfile : String) : List EReal :=
  if fitProfile = "Lorentz" then [⊤, ⊤, ⊤, ⊤]
  else if fitProfile = "Asymmetric Lorentz" then [⊤, ⊤, ⊤, ⊤, ⊤]
  else [⊤, ⊤, ⊤, ⊤, ⊤]

/-! ## Parameter Estimator (Fit.fit_derivative, initial-guess portion) -/

/-- The initial guess vector `p0` assembled by `Fit.fit_derivative` before the
bounded least-squares call, translated line by line from the source. -/
def fit_derivative_p0 (x y : List ℝ) (fitProfile : String) : List ℝ :=
  let offset := npMean y
  let width := |x.getD (npArgmax y) 0 - x.getD (npArgmin y) 0| / 2 * Real.sqrt 3
  let integral := cumtrapz (y.map (· - offset)) x
  let center :=
    if npArgmin y < npArgmax y then x.getD (npArgmin integral) 0
    else x.getD (npArgmax integral) 0
  let scale0 :=
    if npArgmin y < npArgmax y then y.getD (npArgmin integral) 0 - offset
    else y.getD (npArgmax integral) 0 - offset
  let scale1 := if fitProfile = "Voigt" then scale0 * 10 else scale0
  let scale2 := if fitProfile = "Lorentz" then scale1 * 1e-2 else scale1
  let scale := if fitProfile = "Asymmetric Lorentz" then scale2 * 1e-2 else scale2
  if fitProfile = "Lorentz" then [scale, center, width, offset]
  else if fitProfile = "Asymmetric Lorentz" then [scale, center, width, offset, 0]
  else [scale, center, width, 0.001, offset]

/-- Reference definition from the specification (spec 4.2, steps 1-6): the
estimator's initial guess vector, written from the specification text. -/
def specInitialGuess (x y : List ℝ) (v : LineShape) : List ℝ :=
  let offset := npMean y
  let width := |x.getD (npArgmax y) 0 - x.getD (npArgmin y) 0| / 2 * Real.sqrt 3
  let integral := cumtrapz (y.map (· - offset)) x
  let downUp := npArgmin y < npArgmax y
  let center :=
    if downUp then x.getD (npArgmin integral) 0 else x.getD (npArgmax integral) 0
  let scaleRaw :=
    (if downUp then y.getD (npArgmin integral) 0 else y.getD (npArgmax integral) 0) - offset
  let scale :=
    match v with
    | .Voigt => scaleRaw * 10
    | .Lorentz => scaleRaw * 0.01
    | .AsymmetricLorentz => scaleRaw * 0.01
  match v with
  | .Lorentz => [scale, center, width, offset]
  | .AsymmetricLorentz => [scale, center, width, offset, 0]
  | .Voigt => [scale, center, width, 0.001, offset]

/-! ## Adaptive Field-Range Planner (fmr.py, FMR.calc_B_range) -/

/-- `FMR.calc_B_range`: plan an evenly spaced field range around the expected
resonance `B0` with linewidth `deltaB`; the start is clipped at zero before
`np.arange(start, stop+step, step) + offset`. -/
def calc_B_range (B0 deltaB : ℝ) (multiplier sampling : ℕ) (offset : ℝ) : List ℝ :=
  let start := B0 - multiplier * deltaB
  let stop := B0 + multiplier * deltaB
  let step := deltaB / sampling
  let start' := if start < 0 then 0 else start
  (arange start' (stop + step) step).map (· + offset)

/-! ## Kittel dispersion relations and their planner inverses -/

/-- `Fit.kittel_fitfunction_inplane`: `gamma_prime * np.sqrt(B * (B + mu0*M))`. -/
def kittel_fitfunction_inplane (B M g : ℝ) : ℝ :=
  gamma_prime g * Real.sqrt (B * (B + mu0 * M))

/-- `Fit.kittel_fitfunction_outofplane`: `gamma_prime * (B - mu0*M)`. -/
def kittel_fitfunction_outofplane (B M g : ℝ) : ℝ :=
  gamma_prime g * (B - mu0 * M)

/-- `FMR.kittel_resonance_field_ip`: the planner's inverse of the in-plane
dispersion relation, `-mu0*M/2 + np.sqrt(mu0**2*M**2/4 + f**2/gamma_prime**2)`. -/
def kittel_resonance_field_ip (f M gp : ℝ) : ℝ :=
  -(mu0 * M) / 2 + Real.sqrt (mu0 ^ 2 * M ^ 2 / 4 + f ^ 2 / gp ^ 2)

/-- `FMR.kittel_resonance_field_oop`: the planner's inverse of the out-of-plane
dispersion relation, `abs(f / gamma_prime + mu0*M)`. -/
def kittel_resonance_field_oop (f M gp : ℝ) : ℝ :=
  |f / gp + mu0 * M|

/-- `FMR.delta_B` and `Fit.damping_fitfunction`: the linear linewidth model
`alpha * f / gamma_prime + deltaB0`. -/
def damping_fitfunction (f alpha deltaB0 gp : ℝ) : ℝ := alpha * f / gp + deltaB0

/-! ## Autophase Estimator (fmr.py, FMR.autophase) -/

/-- `FMR.complex_rotate_array`: convert the phase from degrees to radians,
multiply `X + iY` elementwise by `complex(cos p, sin p)` and return the real
and imaginary parts. -/
def complex_rotate_array (X Y : List ℝ) (phase : ℝ) : List ℝ × List ℝ :=
  let p := phase / 180 * Real.pi
  let r : ℂ := ⟨Real.cos p, Real.sin p⟩
  let V : List ℂ := (X.zip Y).map fun q => r * ⟨q.1, q.2⟩
  (V.map Complex.re, V.map Complex.im)

/-- `np.linspace(-90, 90, 181)`: the brute-force phase grid of `FMR.autophase`,
one value per integer degree. -/
def PHI : List ℝ := (List.range 181).map fun k : ℕ => -90 + (k : ℝ)

/-- The list `RMS` built by the loop in `FMR.autophase`: for each phase in
`PHI`, `np.sqrt(np.sum(Y_**2))` of the rotated quadrature component. -/
def autophase_rms (X Y : List ℝ) : List ℝ :=
  PHI.map fun phi =>
    Real.sqrt (((complex_rotate_array X Y phi).2.map fun v => v ^ 2).sum)

/-- `i = np.argmin(np.array(RMS))` in `FMR.autophase`. -/
def autophase_index (X Y : List ℝ) : ℕ := npArgmin (autophase_rms X Y)

/-- The phase `PHI[i]` selected and printed by `FMR.autophase`. -/
def autophase_phi (X Y : List ℝ) : ℝ := PHI.getD (autophase_index X Y) 0

/-- `FMR.autophase`: the rotated in-phase component `X_max` at the selected
phase, which is the function's return value. -/
def autophase (X Y : List ℝ) : List ℝ :=
  (complex_rotate_array X Y (autophase_phi X Y)).1

/-- Reference definition from the specification (spec 4.6): the rotated
samples `X' + iY' = e^(i p) * (X + iY)` at phase angle `phase` in degrees,
with `p` the phase in radians. -/
def specRotate (X Y : List ℝ) (phase : ℝ) : List ℂ :=
  (X.zip Y).map fun q =>
    Complex.exp ((phase / 180 * Real.pi : ℝ) * Complex.I) * (⟨q.1, q.2⟩ : ℂ)

/-- Reference definition from the specification (spec 4.6): the root mean
square of the rotated quadrature component `Y'`. -/
def specRMS (X Y : List ℝ) (phase : ℝ) : ℝ :=
  Real.sqrt ((((complex_rotate_array X Y phase).2.map fun v => v ^ 2).sum)
    / ((complex_rotate_array X Y phase).2.length))

/-! ## Kittel and Damping aggregate fits (OpenFMR_Fit.py) with error model -/

/-- The error kinds of the aggregate fits (spec 7).  In the Python source these
surface as exceptions of the numeric libraries: `insufficientData` is scipy's
`TypeError` for `curve_fit` with fewer data points than model parameters (or
Python's `ValueError` for `max` of an empty sequence), `invalidMode` is the
`UnboundLocalError` reached when no dispersion-mode branch was taken. -/
inductive FitError where
  | insufficientData
  | invalidMode
deriving DecidableEq

/-- Model of the input validation of `scipy.optimize.curve_fit`: fitting a
model with `nparams` parameters to `npoints` data points fails when
`npoints < nparams` ("The number of func parameters must not exceed the
number of data points").  The iterative least-squares solution itself is not
modelled; only the argument check is. -/
def curve_fit_points_ok (nparams npoints : ℕ) : Except FitError Unit :=
  if npoints < nparams then Except.error FitError.insufficientData else Except.ok ()

/-- `Fit.KittelFit`, with the optimizer abstracted: `max(resonance_fields)`
fails on an empty input, then each mode branch calls the 2-parameter
`curve_fit`.  On success the deterministic data are returned: the dense
plotting axis `np.linspace(0, max(x), 100)` and the initial guess `p0`
(in-plane `[1000e3, 2.1]`; out-of-plane the analytic mean-based `M` with
`g = 2.1`). -/
def KittelFit (x y : List ℝ) (mode : String) : Except FitError (List ℝ × List ℝ) :=
  if x.length = 0 then Except.error FitError.insufficientData
  else
    let x_fit := linspace 0 (npMax x) 100
    if mode = "in-plane" then
      (curve_fit_points_ok 2 x.length).map fun _ => (x_fit, [1000e3, 2.1])
    else if mode = "out-of-plane" then
      let M := 1 / mu0 * npMean ((x.zip y).map fun q => q.1 - q.2 * 1e9 / gamma_prime 2.1)
      (curve_fit_points_ok 2 x.length).map fun _ => (x_fit, [M, 2.1])
    else Except.error FitError.invalidMode

/-- `Fit.DampingFit`, with the optimizer abstracted: the 2-parameter
`curve_fit` of the linear damping model runs first (failing on fewer than 2
points), then the dense axis `np.linspace(0, max(frequencies), 100)` and the
initial guess `p0 = [0.005, 0.0]` are produced. -/
def DampingFit (frequencies widths : List ℝ) (gp : ℝ) :
    Except FitError (List ℝ × List ℝ) :=
  (curve_fit_points_ok 2 frequencies.length).map fun _ =>
    (linspace 0 (npMax frequencies) 100, [0.005, 0.0])

end

/-! ## Helper lemmas -/

theorem npArgmin_lt_length : ∀ (l : List ℝ), l ≠ [] → npArgmin l < l.length := by
  intro l
  induction l with
  | nil => intro h; exact absurd rfl h
  | cons a t ih =>
    intro _
    cases t with
    | nil => simp [npArgmin]
    | cons b t' =>
      rw [npArgmin]
      split
      · simp
      · have h := ih (by simp)
        simp only [List.length_cons] at h ⊢
        omega

theorem npArgmin_le : ∀ (l : List ℝ) (j : ℕ), j < l.length →
    l.getD (npArgmin l) 0 ≤ l.getD j 0 := by
  intro l
  induction l with
  | nil => intro j hj; simp at hj
  | cons a t ih =>
    cases t with
    | nil =>
      intro j hj
      have hj0 : j = 0 := by simpa using hj
      subst hj0
      simp [npArgmin]
    | cons b t' =>
      intro j hj
      rw [npArgmin]
      by_cases h : a ≤ (b :: t').getD (npArgmin (b :: t')) 0
      · rw [if_pos h]
        cases j with
        | zero => simp
        | succ j' =>
          simp only [List.getD_cons_zero, List.getD_cons_succ]
          exact le_trans h (ih j' (by simpa using hj))
      · rw [if_neg h]
        cases j with
        | zero =>
          simp only [List.getD_cons_zero, List.getD_cons_succ]
          exact le_of_lt (lt_of_not_le h)
        | succ j' =>
          simp only [List.getD_cons_succ]
          exact ih j' (by simpa using hj)

theorem npArgmin_first : ∀ (l : List ℝ) (j : ℕ), j < npArgmin l →
    l.getD (npArgmin l) 0 < l.getD j 0 := by
  intro l
  induction l with
  | nil => intro j hj; simp [npArgmin] at hj
  | cons a t ih =>
    cases t with
    | nil => intro j hj; simp [npArgmin] at hj
    | cons b t' =>
      intro j hj
      rw [npArgmin] at hj ⊢
      by_cases h : a ≤ (b :: t').getD (npArgmin (b :: t')) 0
      · rw [if_pos h] at hj
        simp at hj
      · rw [if_neg h] at hj ⊢
        cases j with
        | zero =>
          simp only [List.getD_cons_zero, List.getD_cons_succ]
          exact lt_of_not_le h
        | succ j' =>
          simp only [List.getD_cons_succ]
          exact ih j' (by omega)

theorem getD_map_of_lt {α β : Type} (l : List α) (f : α → β) (j : ℕ)
    (hj : j < l.length) (d : β) (d' : α) : (l.map f).getD j d = f (l.getD j d') := by
  rw [List.getD_eq_getElem _ _ (by simpa using hj), List.getD_eq_getElem _ _ hj,
    List.getElem_map]

theorem div_le_div_nonneg_denom {a b c : ℝ} (hab : a ≤ b) (hc : 0 ≤ c) :
    a / c ≤ b / c :=
  div_le_div_of_nonneg_right hab hc

/-! ## C4, C7, C10, C8, C5, C1 -/

/-- C4: for every field value `B ≥ 0` and all parameters `M`, `g`, the in-plane
Kittel model returns `γ'·√(B·(B+μ₀M))` and the out-of-plane model returns
`γ'·(B−μ₀M)`, with `γ' = g·e/(2·mₑ)/(2π)` from the shared constants. -/
theorem kittel_model_functions (B M g : ℝ) (hB : 0 ≤ B) :
    kittel_fitfunction_inplane B M g
      = g * e / (2 * me) / (2 * Real.pi) * Real.sqrt (B * (B + mu0 * M)) ∧
    kittel_fitfunction_outofplane B M g
      = g * e / (2 * me) / (2 * Real.pi) * (B - mu0 * M) :=
  ⟨rfl, rfl⟩

theorem kittel_model_functions_witness :
    (0:ℝ) ≤ 1 ∧
    (kittel_fitfunction_inplane 1 2 3
        = 3 * e / (2 * me) / (2 * Real.pi) * Real.sqrt (1 * (1 + mu0 * 2)) ∧
      kittel_fitfunction_outofplane 1 2 3
        = 3 * e / (2 * me) / (2 * Real.pi) * (1 - mu0 * 2)) :=
  ⟨by norm_num, kittel_model_functions 1 2 3 (by norm_num)⟩

/-- C7: for every line-shape variant, the lower bounds passed to the bounded
least-squares fit are 0 exactly at the center, Γ and (for Voigt) σ positions
and −∞ elsewhere, and every upper bound is +∞. -/
theorem fit_derivative_bounds (v : LineShape) :
    fit_derivative_lower_bounds v.profileName = (paramRoles v).map specLowerBound ∧
    fit_derivative_upper_bounds v.profileName
      = (paramRoles v).map fun _ => (⊤ : EReal) := by
  cases v <;> exact ⟨rfl, rfl⟩

/-- C10: the denominator of `lorentz_derivative` is strictly positive whenever
`Γ ≠ 0`, so the evaluation is free of division by zero; at `Γ = 0` (admitted
by the fitter's lower bound of 0 on Γ) and `B = B0` the denominator is zero. -/
theorem lorentz_derivative_denominator (B A B0 Gamma offset : ℝ) (h : Gamma ≠ 0) :
    0 < lorentzDenom B B0 Gamma ∧
    lorentz_derivative B A B0 Gamma offset
      = A * Gamma ^ 2 * (B0 - B) / lorentzDenom B B0 Gamma + offset ∧
    lorentzDenom B0 B0 0 = 0 ∧
    (fit_derivative_lower_bounds "Lorentz").getD 2 ⊥ = (0 : EReal) := by
  refine ⟨?_, rfl, by simp [lorentzDenom], rfl⟩
  have h2 : 0 < Gamma ^ 2 := lt_of_le_of_ne (sq_nonneg Gamma) (Ne.symm (pow_ne_zero 2 h))
  have h3 : 0 < (B - B0) ^ 2 + Gamma ^ 2 := by nlinarith [sq_nonneg (B - B0)]
  exact pow_pos h3 2

theorem lorentz_derivative_denominator_witness :
    (1 : ℝ) ≠ 0 ∧
    (0 < lorentzDenom 0 0 1 ∧
      lorentz_derivative 0 2 0 1 3 = 2 * 1 ^ 2 * (0 - 0) / lorentzDenom 0 0 1 + 3 ∧
      lorentzDenom 0 0 0 = 0 ∧
      (fit_derivative_lower_bounds "Lorentz").getD 2 ⊥ = (0 : EReal)) :=
  ⟨by norm_num, lorentz_derivative_denominator 0 2 0 1 3 (by norm_num)⟩

theorem gamma_prime_pos {g : ℝ} (hg : 0 < g) : 0 < gamma_prime g := by
  have hpi : 0 < Real.pi := Real.pi_pos
  have he : (0:ℝ) < e := by norm_num [e]
  have hme : (0:ℝ) < me := by norm_num [me]
  unfold gamma_prime
  positivity

/-- C8: the planner's inverse dispersion formulas round-trip through the Kittel
model functions: for `f ≥ 0`, `M ≥ 0`, `g > 0`, evaluating the in-plane model
at `kittel_resonance_field_ip f M γ'` returns `f`, and evaluating the
out-of-plane model at `kittel_resonance_field_oop f M γ'` returns `f` whenever
`f/γ' + μ₀M ≥ 0`. -/
theorem kittel_inverse_roundtrip (f M g : ℝ) (hf : 0 ≤ f) (hM : 0 ≤ M) (hg : 0 < g) :
    kittel_fitfunction_inplane (kittel_resonance_field_ip f M (gamma_prime g)) M g = f ∧
    (0 ≤ f / gamma_prime g + mu0 * M →
      kittel_fitfunction_outofplane (kittel_resonance_field_oop f M (gamma_prime g)) M g
        = f) := by
  have hgp : 0 < gamma_prime g := gamma_prime_pos hg
  constructor
  · have hD : 0 ≤ mu0 ^ 2 * M ^ 2 / 4 + f ^ 2 / gamma_prime g ^ 2 := by positivity
    have hs := Real.sq_sqrt hD
    have key : kittel_resonance_field_ip f M (gamma_prime g)
        * (kittel_resonance_field_ip f M (gamma_prime g) + mu0 * M)
        = (f / gamma_prime g) ^ 2 := by
      unfold kittel_resonance_field_ip
      rw [div_pow]
      linear_combination hs
    unfold kittel_fitfunction_inplane
    rw [key, Real.sqrt_sq (div_nonneg hf (le_of_lt hgp))]
    field_simp
  · intro h
    unfold kittel_fitfunction_outofplane kittel_resonance_field_oop
    rw [abs_of_nonneg h]
    field_simp
    ring

theorem kittel_inverse_roundtrip_witness :
    (0:ℝ) ≤ 0 ∧ (0:ℝ) < 2 ∧
    (kittel_fitfunction_inplane (kittel_resonance_field_ip 0 0 (gamma_prime 2)) 0 2 = 0 ∧
      (0 ≤ 0 / gamma_prime 2 + mu0 * 0 →
        kittel_fitfunction_outofplane (kittel_resonance_field_oop 0 0 (gamma_prime 2)) 0 2
          = 0)) :=
  ⟨le_refl 0, by norm_num, kittel_inverse_roundtrip 0 0 2 (le_refl 0) (le_refl 0) (by norm_num)⟩

/-- C5: `KittelFit` and `DampingFit` each require at least 2 input points;
with fewer than 2 they fail with the insufficient-data error, and with 2 or
more points the pre-fit validation succeeds, so the failure is local to the
one aggregate fit that received too few points. -/
theorem aggregate_fits_need_two_points (x y freqs w : List ℝ) (gp : ℝ) (mode : String)
    (hmode : mode = "in-plane" ∨ mode = "out-of-plane")
    (hx : x.length < 2) (hfr : freqs.length < 2) :
    KittelFit x y mode = Except.error FitError.insufficientData ∧
    DampingFit freqs w gp = Except.error FitError.insufficientData ∧
    (∀ x2 y2 : List ℝ, 2 ≤ x2.length → ∃ v, KittelFit x2 y2 mode = Except.ok v) ∧
    (∀ f2 w2 : List ℝ, 2 ≤ f2.length → ∃ v, DampingFit f2 w2 gp = Except.ok v) := by
  refine ⟨?_, ?_, ?_, ?_⟩
  · rcases hmode with hm | hm <;> subst hm <;>
      by_cases h0 : x.length = 0 <;>
      simp [KittelFit, curve_fit_points_ok, h0, hx, Except.map]
  · simp [DampingFit, curve_fit_points_ok, hfr, Except.map]
  · intro x2 y2 h2
    rcases hmode with hm | hm <;> subst hm
    · exact ⟨(linspace 0 (npMax x2) 100, [1000e3, 2.1]),
        by simp [KittelFit, curve_fit_points_ok, Except.map,
          show x2.length ≠ 0 by omega, show ¬ x2.length < 2 by omega]⟩
    · exact ⟨(linspace 0 (npMax x2) 100,
        [1 / mu0 * npMean ((x2.zip y2).map fun q => q.1 - q.2 * 1e9 / gamma_prime 2.1), 2.1]),
        by simp [KittelFit, curve_fit_points_ok, Except.map,
          show x2.length ≠ 0 by omega, show ¬ x2.length < 2 by omega]⟩
  · intro f2 w2 h2
    exact ⟨(linspace 0 (npMax f2) 100, [0.005, 0.0]),
      by simp [DampingFit, curve_fit_points_ok, Except.map,
        show ¬ f2.length < 2 by omega]⟩

theorem aggregate_fits_need_two_points_witness :
    ("in-plane" = "in-plane" ∨ "in-plane" = "out-of-plane") ∧
    ([(1:ℝ)] : List ℝ).length < 2 ∧ ([] : List ℝ).length < 2 ∧
    (KittelFit [(1:ℝ)] [(2:ℝ)] "in-plane" = Except.error FitError.insufficientData ∧
      DampingFit [] [] 1 = Except.error FitError.insufficientData ∧
      (∀ x2 y2 : List ℝ, 2 ≤ x2.length →
        ∃ v, KittelFit x2 y2 "in-plane" = Except.ok v) ∧
      (∀ f2 w2 : List ℝ, 2 ≤ f2.length → ∃ v, DampingFit f2 w2 1 = Except.ok v)) :=
  ⟨Or.inl rfl, by norm_num, by norm_num,
    aggregate_fits_need_two_points [(1:ℝ)] [(2:ℝ)] [] [] 1 "in-plane" (Or.inl rfl)
      (by norm_num) (by norm_num)⟩

/-- C1: for every sweep curve and every line-shape variant, the initial guess
vector produced by `fit_derivative` equals the specification's estimator
reference definition (offset = mean, width from peak-to-peak separation,
polarity-dependent center and scale from the cumulative trapezoidal integral,
variant scale correction, fixed assembly order with β = 0 and σ = 0.001). -/
theorem fit_derivative_initial_guess (x y : List ℝ) (v : LineShape)
    (hlen : x.length = y.length) (hne : y ≠ []) :
    fit_derivative_p0 x y v.profileName = specInitialGuess x y v := by
  cases v <;>
    simp only [fit_derivative_p0, specInitialGuess, LineShape.profileName] <;>
    by_cases hd : npArgmin y < npArgmax y <;>
    simp [hd]

theorem fit_derivative_initial_guess_witness :
    ([0, 1] : List ℝ).length = ([1, 2] : List ℝ).length ∧
    ([1, 2] : List ℝ) ≠ [] ∧
    fit_derivative_p0 [0, 1] [1, 2] LineShape.Lorentz.profileName
      = specInitialGuess [0, 1] [1, 2] LineShape.Lorentz :=
  ⟨rfl, by simp,
    fit_derivative_initial_guess [0, 1] [1, 2] LineShape.Lorentz rfl (by simp)⟩

/-! ## Field-Range Planner lemmas (C2, C9) -/

theorem arange_map_offset_pairwise (start stop step offset : ℝ) (hstep : 0 < step) :
    ((arange start stop step).map (· + offset)).Pairwise (· < ·) := by
  unfold arange
  rw [List.map_map]
  refine List.Pairwise.map _ ?_ (List.pairwise_lt_range _)
  intro a b hab
  have hab' : (a : ℝ) < b := by exact_mod_cast hab
  simp only [Function.comp]
  nlinarith [hstep]

theorem arange_map_offset_getD (start stop step offset : ℝ) (j : ℕ)
    (hj : j < ⌈(stop - start) / step⌉₊) :
    ((arange start stop step).map (· + offset)).getD j 0 = start + j * step + offset := by
  unfold arange
  rw [List.map_map]
  have hj' : j < (List.range ⌈(stop - start) / step⌉₊).length := by simpa using hj
  rw [getD_map_of_lt _ _ j hj' 0 0, List.getD_eq_getElem _ _ hj', List.getElem_range]
  simp [Function.comp]

theorem calc_B_range_eq_of_nonneg (B0 deltaB offset : ℝ) (m s : ℕ)
    (hdB : 0 < deltaB) (hs : 0 < s) (h0 : 0 ≤ B0 - m * deltaB) :
    calc_B_range B0 deltaB m s offset
      = (List.range (2 * m * s + 1)).map
          fun k : ℕ => B0 - m * deltaB + (k : ℝ) * (deltaB / s) + offset := by
  simp only [calc_B_range]
  rw [if_neg (not_lt.mpr h0)]
  unfold arange
  have hs' : ((s : ℝ)) ≠ 0 := by positivity
  have hcount : (B0 + m * deltaB + deltaB / s - (B0 - m * deltaB)) / (deltaB / s)
      = ((2 * m * s + 1 : ℕ) : ℝ) := by
    push_cast
    field_simp
    ring
  rw [hcount, Nat.ceil_natCast, List.map_map]
  rfl

theorem calc_B_range_getD_of_nonneg (B0 deltaB offset : ℝ) (m s : ℕ)
    (hdB : 0 < deltaB) (hs : 0 < s) (h0 : 0 ≤ B0 - m * deltaB) (j : ℕ)
    (hj : j < 2 * m * s + 1) :
    (calc_B_range B0 deltaB m s offset).getD j 0
      = B0 - m * deltaB + j * (deltaB / s) + offset := by
  rw [calc_B_range_eq_of_nonneg B0 deltaB offset m s hdB hs h0]
  have hj' : j < (List.range (2 * m * s + 1)).length := by simpa using hj
  rw [getD_map_of_lt _ _ j hj' 0 0, List.getD_eq_getElem _ _ hj', List.getElem_range]

theorem calc_B_range_clipped (B0 deltaB offset : ℝ) (m s : ℕ)
    (hneg : B0 - m * deltaB < 0) :
    calc_B_range B0 deltaB m s offset
      = (arange 0 (B0 + m * deltaB + deltaB / s) (deltaB / s)).map (· + offset) := by
  simp only [calc_B_range]
  rw [if_pos hneg]

theorem calc_B_range_clipped_count (B0 deltaB : ℝ) (m s : ℕ)
    (hdB : 0 < deltaB) (hs : 0 < s) (hpos : 0 < B0 + m * deltaB + deltaB / s) :
    0 < ⌈(B0 + m * deltaB + deltaB / s - 0) / (deltaB / s)⌉₊ := by
  have hstep : (0:ℝ) < deltaB / s := div_pos hdB (by exact_mod_cast hs)
  rw [Nat.ceil_pos, sub_zero]
  exact div_pos hpos hstep

theorem calc_B_range_clipped_head (B0 deltaB offset : ℝ) (m s : ℕ)
    (hdB : 0 < deltaB) (hs : 0 < s)
    (hneg : B0 - m * deltaB < 0) (hpos : 0 < B0 + m * deltaB + deltaB / s) :
    (calc_B_range B0 deltaB m s offset).getD 0 0 = offset := by
  rw [calc_B_range_clipped B0 deltaB offset m s hneg,
    arange_map_offset_getD 0 _ _ offset 0
      (calc_B_range_clipped_count B0 deltaB m s hdB hs hpos)]
  norm_num

theorem calc_B_range_pairwise (B0 deltaB offset : ℝ) (m s : ℕ)
    (hdB : 0 < deltaB) (hs : 0 < s) :
    (calc_B_range B0 deltaB m s offset).Pairwise (· < ·) := by
  have hstep : (0:ℝ) < deltaB / s := div_pos hdB (by exact_mod_cast hs)
  simp only [calc_B_range]
  exact arange_map_offset_pairwise _ _ _ _ hstep

/-- C2: `calc_B_range` returns an evenly spaced ascending sequence with step
`ΔB/sampling` from `B0 − multiplier·ΔB` to `B0 + multiplier·ΔB` inclusive,
shifted by the offset, the lower bound being clipped to zero when negative;
in particular the spec's two concrete instances hold. -/
theorem calc_B_range_plan (B0 deltaB offset : ℝ) (m s : ℕ)
    (hdB : 0 < deltaB) (hm : 0 < m) (hs : 0 < s) :
    (calc_B_range B0 deltaB m s offset).Pairwise (· < ·) ∧
    (0 ≤ B0 - m * deltaB →
      calc_B_range B0 deltaB m s offset
        = (List.range (2 * m * s + 1)).map
            (fun k : ℕ => B0 - m * deltaB + (k : ℝ) * (deltaB / s) + offset) ∧
      (calc_B_range B0 deltaB m s offset).length = 2 * m * s + 1 ∧
      (calc_B_range B0 deltaB m s offset).getD 0 0 = B0 - m * deltaB + offset ∧
      (calc_B_range B0 deltaB m s offset).getD (2 * m * s) 0
        = B0 + m * deltaB + offset) ∧
    (B0 - m * deltaB < 0 →
      calc_B_range B0 deltaB m s offset
        = (arange 0 (B0 + m * deltaB + deltaB / s) (deltaB / s)).map (· + offset)) ∧
    (calc_B_range 0.05 0.002 8 6 0).Pairwise (· < ·) ∧
    (calc_B_range 0.05 0.002 8 6 0).getD 0 0 = 0.034 ∧
    (calc_B_range 0.05 0.002 8 6 0).getD 96 0 = 0.066 ∧
    (calc_B_range 0.05 0.002 8 6 0).length = 97 ∧
    (calc_B_range 0.001 0.002 8 6 0).getD 0 0 = 0 := by
  have hs' : ((s : ℝ)) ≠ 0 := by positivity
  refine ⟨calc_B_range_pairwise B0 deltaB offset m s hdB hs, fun h0 => ?_,
    fun hneg => calc_B_range_clipped B0 deltaB offset m s hneg,
    calc_B_range_pairwise 0.05 0.002 0 8 6 (by norm_num) (by norm_num), ?_, ?_, ?_, ?_⟩
  · refine ⟨calc_B_range_eq_of_nonneg B0 deltaB offset m s hdB hs h0, ?_, ?_, ?_⟩
    · rw [calc_B_range_eq_of_nonneg B0 deltaB offset m s hdB hs h0]
      simp
    · rw [calc_B_range_getD_of_nonneg B0 deltaB offset m s hdB hs h0 0 (by omega)]
      norm_num
    · rw [calc_B_range_getD_of_nonneg B0 deltaB offset m s hdB hs h0 (2 * m * s)
        (by omega)]
      push_cast
      field_simp
      ring
  · rw [calc_B_range_getD_of_nonneg 0.05 0.002 0 8 6 (by norm_num) (by norm_num)
      (by norm_num) 0 (by norm_num)]
    norm_num
  · rw [calc_B_range_getD_of_nonneg 0.05 0.002 0 8 6 (by norm_num) (by norm_num)
      (by norm_num) 96 (by norm_num)]
    norm_num
  · rw [calc_B_range_eq_of_nonneg 0.05 0.002 0 8 6 (by norm_num) (by norm_num)
      (by norm_num)]
    simp
  · exact calc_B_range_clipped_head 0.001 0.002 0 8 6 (by norm_num) (by norm_num)
      (by norm_num) (by norm_num)

theorem calc_B_range_plan_witness :
    (0:ℝ) < 0.002 ∧ 0 < 8 ∧ 0 < 6 ∧
    ((calc_B_range 0.05 0.002 8 6 0).Pairwise (· < ·) ∧
      (0 ≤ (0.05:ℝ) - (8:ℕ) * 0.002 →
        calc_B_range 0.05 0.002 8 6 0
          = (List.range (2 * 8 * 6 + 1)).map
              (fun k : ℕ => (0.05:ℝ) - (8:ℕ) * 0.002 + (k : ℝ) * (0.002 / (6:ℕ)) + 0) ∧
        (calc_B_range 0.05 0.002 8 6 0).length = 2 * 8 * 6 + 1 ∧
        (calc_B_range 0.05 0.002 8 6 0).getD 0 0 = (0.05:ℝ) - (8:ℕ) * 0.002 + 0 ∧
        (calc_B_range 0.05 0.002 8 6 0).getD (2 * 8 * 6) 0
          = (0.05:ℝ) + (8:ℕ) * 0.002 + 0) ∧
      ((0.05:ℝ) - (8:ℕ) * 0.002 < 0 →
        calc_B_range 0.05 0.002 8 6 0
          = (arange 0 ((0.05:ℝ) + (8:ℕ) * 0.002 + 0.002 / (6:ℕ)) (0.002 / (6:ℕ))).map
              (· + 0)) ∧
      (calc_B_range 0.05 0.002 8 6 0).Pairwise (· < ·) ∧
      (calc_B_range 0.05 0.002 8 6 0).getD 0 0 = 0.034 ∧
      (calc_B_range 0.05 0.002 8 6 0).getD 96 0 = 0.066 ∧
      (calc_B_range 0.05 0.002 8 6 0).length = 97 ∧
      (calc_B_range 0.001 0.002 8 6 0).getD 0 0 = 0) :=
  ⟨by norm_num, by norm_num, by norm_num,
    calc_B_range_plan 0.05 0.002 0 8 6 (by norm_num) (by norm_num) (by norm_num)⟩

/-- Counterexample to C9 as stated: for `B0 = -1`, `ΔB = 0.002`,
`multiplier = 8`, `sampling = 6`, `offset = -0.5` the clipping premise
`B0 - multiplier·ΔB < 0` holds and the offset is strictly negative, yet the
returned plan is empty: it has no first element and contains no negative
field value. -/
theorem calc_B_range_clip_counterexample :
    ((-1 : ℝ) - (8 : ℕ) * 0.002 < 0) ∧ ((-0.5 : ℝ) < 0) ∧
    calc_B_range (-1) 0.002 8 6 (-0.5) = [] ∧
    (calc_B_range (-1) 0.002 8 6 (-0.5)).head? = none := by
  have hmain : calc_B_range (-1) 0.002 8 6 (-0.5) = [] := by
    simp only [calc_B_range]
    rw [if_pos (by push_cast; norm_num)]
    unfold arange
    have hc : ⌈((-1 : ℝ) + ((8:ℕ) : ℝ) * 0.002 + 0.002 / ((6:ℕ) : ℝ) - 0)
        / (0.002 / ((6:ℕ) : ℝ))⌉₊ = 0 := by
      rw [Nat.ceil_eq_zero]
      push_cast
      norm_num
    rw [hc]
    simp
  refine ⟨by push_cast; norm_num, by norm_num, hmain, by rw [hmain]; rfl⟩

/-- C9 amended: in `calc_B_range` the zero-clipping of the lower bound is
applied before the offset shift, so whenever `B0 - multiplier·ΔB < 0` and the
plan is nonempty (`0 < B0 + multiplier·ΔB + ΔB/sampling`, as for any
physically meaningful `B0 ≥ 0`), the first element equals exactly the offset,
and for a strictly negative offset the plan contains a negative field value. -/
theorem calc_B_range_clip_before_offset (B0 deltaB offset : ℝ) (m s : ℕ)
    (hdB : 0 < deltaB) (hs : 0 < s)
    (hneg : B0 - m * deltaB < 0) (hpos : 0 < B0 + m * deltaB + deltaB / s) :
    (calc_B_range B0 deltaB m s offset).getD 0 0 = offset ∧
    calc_B_range B0 deltaB m s offset ≠ [] ∧
    (offset < 0 → ∃ v ∈ calc_B_range B0 deltaB m s offset, v < 0) := by
  have hhead := calc_B_range_clipped_head B0 deltaB offset m s hdB hs hneg hpos
  have hne : calc_B_range B0 deltaB m s offset ≠ [] := by
    rw [calc_B_range_clipped B0 deltaB offset m s hneg]
    unfold arange
    have := calc_B_range_clipped_count B0 deltaB m s hdB hs hpos
    simp only [ne_eq, List.map_eq_nil_iff, List.range_eq_nil]
    omega
  have hlen : 0 < (calc_B_range B0 deltaB m s offset).length :=
    List.length_pos.mpr hne
  refine ⟨hhead, hne, fun hoff => ?_⟩
  have hmem : (calc_B_range B0 deltaB m s offset).getD 0 0
      ∈ calc_B_range B0 deltaB m s offset := by
    rw [List.getD_eq_getElem _ _ hlen]
    exact List.getElem_mem hlen
  rw [hhead] at hmem
  exact ⟨offset, hmem, hoff⟩

theorem calc_B_range_clip_before_offset_witness :
    (0:ℝ) < 0.002 ∧ 0 < 6 ∧ ((0.001:ℝ) - (8:ℕ) * 0.002 < 0) ∧
    (0 < (0.001:ℝ) + (8:ℕ) * 0.002 + 0.002 / (6:ℕ)) ∧
    ((calc_B_range 0.001 0.002 8 6 (-0.5)).getD 0 0 = -0.5 ∧
      calc_B_range 0.001 0.002 8 6 (-0.5) ≠ [] ∧
      ((-0.5:ℝ) < 0 → ∃ v ∈ calc_B_range 0.001 0.002 8 6 (-0.5), v < 0)) :=
  ⟨by norm_num, by norm_num, by push_cast; norm_num, by push_cast; norm_num,
    calc_B_range_clip_before_offset 0.001 0.002 (-0.5) 8 6 (by norm_num) (by norm_num)
      (by push_cast; norm_num) (by push_cast; norm_num)⟩

/-! ## Finite-difference scheme (C6) -/

set_option maxHeartbeats 1600000 in
theorem npGradient_eq_secondOrderDeriv (f x : ℕ → ℝ) (n : ℕ) (hn : 3 ≤ n)
    (hx : ∀ i j : ℕ, i < j → j < n → x i < x j) (i : ℕ) (hi : i < n) :
    npGradient f x n i = secondOrderDeriv f x n i := by
  by_cases h0 : i = 0
  · subst h0
    have h01 : x 0 < x 1 := hx 0 1 (by omega) (by omega)
    have h12 : x 1 < x 2 := hx 1 2 (by omega) (by omega)
    have h02 : x 0 < x 2 := hx 0 2 (by omega) (by omega)
    have d1 : x 1 - x 0 ≠ 0 := sub_ne_zero.mpr (ne_of_gt h01)
    have d2 : x 2 - x 1 ≠ 0 := sub_ne_zero.mpr (ne_of_gt h12)
    have d3 : x 0 - x 1 ≠ 0 := sub_ne_zero.mpr (ne_of_lt h01)
    have d4 : x 1 - x 2 ≠ 0 := sub_ne_zero.mpr (ne_of_lt h12)
    have d5 : x 0 - x 2 ≠ 0 := sub_ne_zero.mpr (ne_of_lt h02)
    have d6 : x 2 - x 0 ≠ 0 := sub_ne_zero.mpr (ne_of_gt h02)
    have dsum : x 1 - x 0 + (x 2 - x 1) ≠ 0 := fun hh => d6 (by linarith)
    simp only [npGradient, secondOrderDeriv, quadInterpDeriv, if_pos rfl]
    field_simp
    ring
  · by_cases hl : i = n - 1
    · subst hl
      have h01 : x (n-3) < x (n-2) := hx (n-3) (n-2) (by omega) (by omega)
      have h12 : x (n-2) < x (n-1) := hx (n-2) (n-1) (by omega) (by omega)
      have h02 : x (n-3) < x (n-1) := hx (n-3) (n-1) (by omega) (by omega)
      have d1 : x (n-2) - x (n-3) ≠ 0 := sub_ne_zero.mpr (ne_of_gt h01)
      have d2 : x (n-1) - x (n-2) ≠ 0 := sub_ne_zero.mpr (ne_of_gt h12)
      have d3 : x (n-3) - x (n-2) ≠ 0 := sub_ne_zero.mpr (ne_of_lt h01)
      have d4 : x (n-2) - x (n-1) ≠ 0 := sub_ne_zero.mpr (ne_of_lt h12)
      have d5 : x (n-3) - x (n-1) ≠ 0 := sub_ne_zero.mpr (ne_of_lt h02)
      have d6 : x (n-1) - x (n-3) ≠ 0 := sub_ne_zero.mpr (ne_of_gt h02)
      have dsum : x (n-2) - x (n-3) + (x (n-1) - x (n-2)) ≠ 0 :=
        fun hh => d6 (by linarith)
      simp only [npGradient, secondOrderDeriv, quadInterpDeriv, if_pos rfl,
        if_neg h0]
      field_simp
      ring
    · have h1i : 1 ≤ i := by omega
      have hin : i + 1 < n := by omega
      have h01 : x (i-1) < x i := hx (i-1) i (by omega) (by omega)
      have h12 : x i < x (i+1) := hx i (i+1) (by omega) hin
      have h02 : x (i-1) < x (i+1) := hx (i-1) (i+1) (by omega) hin
      have d1 : x i - x (i-1) ≠ 0 := sub_ne_zero.mpr (ne_of_gt h01)
      have d2 : x (i+1) - x i ≠ 0 := sub_ne_zero.mpr (ne_of_gt h12)
      have d3 : x (i-1) - x i ≠ 0 := sub_ne_zero.mpr (ne_of_lt h01)
      have d4 : x i - x (i+1) ≠ 0 := sub_ne_zero.mpr (ne_of_lt h12)
      have d5 : x (i-1) - x (i+1) ≠ 0 := sub_ne_zero.mpr (ne_of_lt h02)
      have d6 : x (i+1) - x (i-1) ≠ 0 := sub_ne_zero.mpr (ne_of_gt h02)
      have dsum : x i - x (i-1) + (x (i+1) - x i) ≠ 0 :=
        fun hh => d6 (by linarith)
      simp only [npGradient, secondOrderDeriv, quadInterpDeriv, if_neg h0,
        if_neg hl]
      field_simp
      ring

/-- C6: for every strictly increasing field sequence of length at least 3 and
parameters with `Γ ≠ 0`, `asymmetric_lorentz_derivative` returns, at every
sample index, the numeric derivative of the un-differentiated asymmetric
Lorentzian `l`, computed with second-order finite differences (central at
interior points, one-sided at the two endpoint samples — the derivative of
the quadratic through the three nearest samples), plus the offset. -/
theorem asymmetric_lorentz_derivative_scheme (x : ℕ → ℝ) (n : ℕ)
    (A B0 Gamma offset beta : ℝ) (hn : 3 ≤ n)
    (hx : ∀ i j : ℕ, i < j → j < n → x i < x j) (hG : Gamma ≠ 0)
    (i : ℕ) (hi : i < n) :
    asymmetric_lorentz_derivative x n A B0 Gamma offset beta i
      = secondOrderDeriv (fun j => asymmetric_lorentz (x j) A B0 Gamma beta) x n i
        + offset := by
  unfold asymmetric_lorentz_derivative
  rw [npGradient_eq_secondOrderDeriv _ x n hn hx i hi]

theorem asymmetric_lorentz_derivative_scheme_witness :
    3 ≤ 3 ∧ (1:ℝ) ≠ 0 ∧ 1 < 3 ∧
    asymmetric_lorentz_derivative (fun j : ℕ => (j : ℝ)) 3 1 0 1 0 0 1
      = secondOrderDeriv (fun j : ℕ => asymmetric_lorentz ((j : ℝ)) 1 0 1 0)
          (fun j : ℕ => (j : ℝ)) 3 1 + 0 :=
  ⟨by norm_num, by norm_num, by norm_num,
    asymmetric_lorentz_derivative_scheme (fun j : ℕ => (j : ℝ)) 3 1 0 1 0 0
      (by norm_num) (fun i j hij _ => Nat.cast_lt.mpr hij) (by norm_num) 1
      (by norm_num)⟩

/-! ## Autophase lemmas (C3) -/

theorem complex_rotate_snd_length (X Y : List ℝ) (phi : ℝ) :
    (complex_rotate_array X Y phi).2.length = (X.zip Y).length := by
  simp [complex_rotate_array]

theorem sum_sq_nonneg (l : List ℝ) : 0 ≤ (l.map fun v => v ^ 2).sum := by
  apply List.sum_nonneg
  intro a ha
  rcases List.mem_map.mp ha with ⟨v, _, rfl⟩
  exact sq_nonneg v

theorem PHI_length : PHI.length = 181 := by
  simp [PHI]

theorem autophase_rms_length (X Y : List ℝ) : (autophase_rms X Y).length = 181 := by
  simp [autophase_rms, PHI]

theorem autophase_rms_getD (X Y : List ℝ) (j : ℕ) (hj : j < 181) :
    (autophase_rms X Y).getD j 0
      = Real.sqrt (((complex_rotate_array X Y (PHI.getD j 0)).2.map
          fun v => v ^ 2).sum) := by
  have hlen : j < PHI.length := by rw [PHI_length]; exact hj
  unfold autophase_rms
  rw [getD_map_of_lt _ _ j hlen 0 0]

theorem specRMS_eq (X Y : List ℝ) (phi : ℝ) :
    specRMS X Y phi
      = Real.sqrt (((complex_rotate_array X Y phi).2.map fun v => v ^ 2).sum)
        / Real.sqrt ((complex_rotate_array X Y phi).2.length) := by
  unfold specRMS
  rw [Real.sqrt_div (sum_sq_nonneg _)]

theorem exp_ofReal_mul_I_mk (p : ℝ) :
    Complex.exp ((p : ℂ) * Complex.I) = ⟨Real.cos p, Real.sin p⟩ :=
  Complex.ext (by rw [Complex.exp_ofReal_mul_I_re]) (by rw [Complex.exp_ofReal_mul_I_im])

/-- C3: `autophase` evaluates exactly the 181 integer phases −90…90 degrees,
rotates `(X, Y)` in the complex plane by `e^(i p)` where `p` is the phase in
radians, selects the phase minimizing the root mean square of the rotated
quadrature component (first minimum on ties, in ascending phase order),
returns the rotated in-phase sequence at that phase, and the reported phase
is an integer number of degrees between −90 and 90. -/
theorem autophase_correct (X Y : List ℝ) (hlen : X.length = Y.length) :
    PHI = (List.range 181).map (fun k : ℕ => -90 + (k : ℝ)) ∧
    (∀ phi : ℝ, complex_rotate_array X Y phi
      = ((specRotate X Y phi).map Complex.re, (specRotate X Y phi).map Complex.im)) ∧
    autophase X Y = (complex_rotate_array X Y (autophase_phi X Y)).1 ∧
    autophase_index X Y < 181 ∧
    (∀ j < 181, specRMS X Y (autophase_phi X Y) ≤ specRMS X Y (PHI.getD j 0)) ∧
    (∀ j < autophase_index X Y,
      specRMS X Y (autophase_phi X Y) < specRMS X Y (PHI.getD j 0)) ∧
    (∃ z : ℤ, autophase_phi X Y = (z : ℝ) ∧ -90 ≤ z ∧ z ≤ 90) := by
  have hi : autophase_index X Y < 181 := by
    have h := npArgmin_lt_length (autophase_rms X Y)
      (by intro hnil; simpa [hnil] using autophase_rms_length X Y)
    rwa [autophase_rms_length] at h
  have key : ∀ j, j < 181 → specRMS X Y (PHI.getD j 0)
      = (autophase_rms X Y).getD j 0 / Real.sqrt ((X.zip Y).length) := by
    intro j hj
    rw [specRMS_eq, autophase_rms_getD X Y j hj, complex_rotate_snd_length]
  have hargle : ∀ j, j < 181 →
      (autophase_rms X Y).getD (autophase_index X Y) 0
        ≤ (autophase_rms X Y).getD j 0 := by
    intro j hj
    exact npArgmin_le _ j (by rw [autophase_rms_length]; exact hj)
  refine ⟨rfl, ?_, rfl, hi, ?_, ?_, ?_⟩
  · intro phi
    simp only [complex_rotate_array, specRotate]
    rw [exp_ofReal_mul_I_mk]
  · intro j hj
    have hphi : autophase_phi X Y = PHI.getD (autophase_index X Y) 0 := rfl
    rw [hphi, key _ hi, key _ hj]
    exact div_le_div_of_nonneg_right (hargle j hj) (Real.sqrt_nonneg _)
  · intro j hj
    have hj181 : j < 181 := lt_trans hj hi
    have hlt : (autophase_rms X Y).getD (autophase_index X Y) 0
        < (autophase_rms X Y).getD j 0 := npArgmin_first _ j hj
    have hSj : 0 < (autophase_rms X Y).getD j 0 :=
      lt_of_le_of_lt (by rw [autophase_rms_getD X Y _ hi]; exact Real.sqrt_nonneg _) hlt
    have hSpos : 0 < ((complex_rotate_array X Y (PHI.getD j 0)).2.map
        fun v => v ^ 2).sum := by
      rw [autophase_rms_getD X Y j hj181] at hSj
      exact Real.sqrt_pos.mp hSj
    have hNne : (X.zip Y).length ≠ 0 := by
      intro hN
      have hnil : X.zip Y = [] := List.length_eq_zero.mp hN
      rw [show (complex_rotate_array X Y (PHI.getD j 0)).2 = [] by
        simp [complex_rotate_array, hnil]] at hSpos
      simpa using hSpos
    have hsqrtN : 0 < Real.sqrt ((X.zip Y).length) :=
      Real.sqrt_pos.mpr (by exact_mod_cast Nat.pos_of_ne_zero hNne)
    have hphi : autophase_phi X Y = PHI.getD (autophase_index X Y) 0 := rfl
    rw [hphi, key _ hi, key _ hj181]
    exact div_lt_div_of_pos_right hlt hsqrtN
  · have h181 : autophase_index X Y < (List.range 181).length := by
      simpa using hi
    have hphi : autophase_phi X Y = -90 + ((autophase_index X Y : ℕ) : ℝ) := by
      unfold autophase_phi PHI
      rw [getD_map_of_lt _ _ _ h181 0 0, List.getD_eq_getElem _ _ h181,
        List.getElem_range]
    refine ⟨(autophase_index X Y : ℤ) - 90, ?_, by omega, by omega⟩
    rw [hphi]
    push_cast
    ring

theorem autophase_correct_witness :
    ([1] : List ℝ).length = ([0] : List ℝ).length ∧
    (PHI = (List.range 181).map (fun k : ℕ => -90 + (k : ℝ)) ∧
      (∀ phi : ℝ, complex_rotate_array [1] [0] phi
        = ((specRotate [1] [0] phi).map Complex.re,
            (specRotate [1] [0] phi).map Complex.im)) ∧
      autophase [1] [0] = (complex_rotate_array [1] [0] (autophase_phi [1] [0])).1 ∧
      autophase_index [1] [0] < 181 ∧
      (∀ j < 181, specRMS [1] [0] (autophase_phi [1] [0])
        ≤ specRMS [1] [0] (PHI.getD j 0)) ∧
      (∀ j < autophase_index [1] [0],
        specRMS [1] [0] (autophase_phi [1] [0]) < specRMS [1] [0] (PHI.getD j 0)) ∧
      (∃ z : ℤ, autophase_phi [1] [0] = (z : ℝ) ∧ -90 ≤ z ∧ z ≤ 90)) :=
  ⟨rfl, autophase_correct [1] [0] rfl⟩

end OpenFMR
